import Mathlib

/-!
# Verification of the incremental prime sieve (`src/lib.rs`)

The Rust crate implements an incremental (O'Neill style) prime sieve:

* `struct Sieve { composite: HashMap<I, I>, iter: U }` — a map from future
  composite numbers to a prime witness, plus a candidate iterator
  (`2..` for `infinite()`, `2..=upper` for `bounded(upper)`).
* `Sieve::next` draws candidates `n` from the iterator.  If `n` is a key of
  `composite` with value `p`, the entry is removed, `key` starts at `n + p`
  and is bumped by `p` while it collides with an existing key, then
  `(key, p)` is inserted and the loop continues.  If `n` is not a key,
  `(n * n, n)` is inserted and `n` is returned as the next prime.
* `Sieve::size` returns `composite.len()`.

We embed the state over `Nat` (the claims assume no arithmetic overflow of
the index type; all concrete scenarios stay far below `2^32`).  The
`HashMap` is embedded as an association list whose keys are kept unique,
the candidate iterator as a cursor plus an optional inclusive upper bound.
The two source loops that are not structurally bounded (the `while` that
searches a free key, and the `for` over candidates) take an explicit fuel
argument; a free key is always found within `size + 1` bumps, and the
`for` loop runs until the next prime, so enough fuel always exists on
reachable states.  The observable behaviour of one `next()` call is the
fuel-independent relation `NextStep`.
-/

/-- Association-list embedding of `HashMap::get` (specialised to the key
being probed): the first entry with the given key wins. -/
def mapLookup : List (Nat × Nat) → Nat → Option Nat
  | [], _ => none
  | (a, b) :: m, k => if a = k then some b else mapLookup m k

/-- Association-list embedding of the removal part of `HashMap::remove`:
drops every entry carrying the given key (on the unique-key lists the
sieve manipulates this is the single entry, as for `HashMap`). -/
def eraseKey : List (Nat × Nat) → Nat → List (Nat × Nat)
  | [], _ => []
  | (a, b) :: m, k => if a = k then eraseKey m k else (a, b) :: eraseKey m k

/-- Association-list embedding of `HashMap::insert`: the new binding
replaces any previous binding of the same key. -/
def insertKey (m : List (Nat × Nat)) (k v : Nat) : List (Nat × Nat) :=
  (k, v) :: eraseKey m k

/-- The keys of the composite map. -/
def mapKeys (m : List (Nat × Nat)) : List Nat := m.map Prod.fst

/-- State of `Sieve<I, U>` from `src/lib.rs`: the `composite` map, and the
candidate iterator flattened into the next candidate (`cursor`) plus the
optional inclusive upper bound (`none` for `2..`, `some u` for `2..=u`). -/
structure Sieve where
  composite : List (Nat × Nat)
  cursor : Nat
  upper : Option Nat
deriving DecidableEq, Repr

/-- `sieve::infinite()`: empty map, candidates `2..`. -/
def infinite : Sieve := ⟨[], 2, none⟩

/-- `sieve::bounded(upper)`: empty map, candidates `2..=upper`. -/
def bounded (upper : Nat) : Sieve := ⟨[], 2, some upper⟩

/-- `Sieve::size`: the number of stored composite entries. -/
def Sieve.size (s : Sieve) : Nat := s.composite.length

/-- `Sieve::size` takes `&self`: it reads the entry count and leaves the
state untouched.  We model the call as returning the value together with
the (unchanged) state. -/
def Sieve.sizeCall (s : Sieve) : Nat × Sieve := (s.composite.length, s)

/-- One `self.iter.next()` on the candidate iterator: `2..` always yields
the cursor, `2..=u` yields it while `cursor ≤ u`. -/
def Sieve.draw (s : Sieve) : Option (Nat × Sieve) :=
  match s.upper with
  | none => some (s.cursor, { s with cursor := s.cursor + 1 })
  | some u =>
    if s.cursor ≤ u then some (s.cursor, { s with cursor := s.cursor + 1 })
    else none

/-- The `while self.composite.contains_key(&key) { key = key + value }`
loop of `Sieve::next`.  The fuel bounds the number of bumps; `size + 1`
bumps always suffice (see `findFree_found`), so the fuelled function
agrees with the source loop whenever the latter terminates. -/
def findFree : Nat → List (Nat × Nat) → Nat → Nat → Nat
  | 0, _, key, _ => key
  | fuel + 1, m, key, value =>
    if (mapLookup m key).isSome then findFree fuel m (key + value) value
    else key

/-- The body of the `for n in self.iter.by_ref()` loop of `Sieve::next`,
applied to the drawn candidate `n`: either reschedules the prime
witnessing `n` (yielding no output), or registers `n * n` and outputs the
prime `n`. -/
def Sieve.stepCandidate (s : Sieve) (n : Nat) : Option Nat × Sieve :=
  match mapLookup s.composite n with
  | some value =>
    let m1 := eraseKey s.composite n
    let key := findFree (m1.length + 1) m1 (n + value) value
    (none, { s with composite := insertKey m1 key value })
  | none => (some n, { s with composite := insertKey s.composite (n * n) n })

/-- `Sieve::next`, with fuel bounding the number of candidate draws.
`none` means the fuel ran out before the call returned; `some (o, s)` is
the returned value (`o = none` is iterator exhaustion) and state. -/
def Sieve.next : Nat → Sieve → Option (Option Nat × Sieve)
  | 0, _ => none
  | fuel + 1, s =>
    match s.draw with
    | none => some (none, s)
    | some (n, s1) =>
      match s1.stepCandidate n with
      | (some p, s2) => some (some p, s2)
      | (none, s2) => Sieve.next fuel s2

/-- Observable behaviour of one `next()` call: for some fuel the call
returns output `o` in state `t`.  Fuel-monotonicity makes this relation
deterministic. -/
def NextStep (s : Sieve) (o : Option Nat) (t : Sieve) : Prop :=
  ∃ fuel, Sieve.next fuel s = some (o, t)

/-- `Emits s l t`: starting from `s`, successive `next()` calls return
`Some` of each element of `l` in order, ending in state `t`. -/
inductive Emits : Sieve → List Nat → Sieve → Prop
  | nil (s : Sieve) : Emits s [] s
  | cons {s s1 t : Sieve} {p : Nat} {l : List Nat} :
      NextStep s (some p) s1 → Emits s1 l t → Emits s (p :: l) t

/-- `Reaches s t`: state `t` arises from `s` by some number of `next()`
calls (with arbitrary outputs). -/
inductive Reaches : Sieve → Sieve → Prop
  | refl (s : Sieve) : Reaches s s
  | step {s t t' : Sieve} {o : Option Nat} :
      Reaches s t → NextStep t o t' → Reaches s t'

/-- Executable primality test (reference oracle for the spec side). -/
def isPrimeB (n : Nat) : Bool :=
  decide (2 ≤ n) && (List.range n).all fun d => decide (d < 2) || n % d != 0

/-- The least prime `≥ c` (the sieve's next output when the cursor is at
`c`). -/
def nextPrimeAfter (c : Nat) : Nat :=
  Nat.find (Nat.exists_infinite_primes c)

/-- The list of the next `k` primes starting from cursor `c`. -/
def primesFrom : Nat → Nat → List Nat
  | _, 0 => []
  | c, k + 1 => nextPrimeAfter c :: primesFrom (nextPrimeAfter c + 1) k

/-- The cursor position after emitting `k` primes from cursor `c`. -/
def chainEnd : Nat → Nat → Nat
  | c, 0 => c
  | c, k + 1 => chainEnd (nextPrimeAfter c + 1) k

/-- Fuelled enumeration of the primes in `[c, u]` in increasing order. -/
def primesBetweenFuel : Nat → Nat → Nat → List Nat
  | 0, _, _ => []
  | fuel + 1, c, u =>
    if c ≤ u then
      if isPrimeB c then c :: primesBetweenFuel fuel (c + 1) u
      else primesBetweenFuel fuel (c + 1) u
    else []

/-- The primes in `[c, u]`, in increasing order (reference oracle for the
bounded sieve). -/
def primesBetween (c u : Nat) : List Nat := primesBetweenFuel (u + 1 - c) c u

/-- Run `count` many `next()` calls (each with the given per-call fuel),
collecting the emitted primes; stops early if a call exhausts or runs out
of fuel. -/
def runPrimes (fuel : Nat) : Nat → Sieve → List Nat × Sieve
  | 0, s => ([], s)
  | count + 1, s =>
    match Sieve.next fuel s with
    | some (some p, s1) =>
      let r := runPrimes fuel count s1
      (p :: r.1, r.2)
    | _ => ([], s)


/-! ## Basic lemmas about the association-list map -/

theorem mapLookup_eq_none {m : List (Nat × Nat)} {k : Nat} :
    mapLookup m k = none ↔ ∀ v, (k, v) ∉ m := by
  induction m with
  | nil => simp [mapLookup]
  | cons e m ih =>
    obtain ⟨x, y⟩ := e
    simp only [mapLookup]
    split
    · rename_i hxk
      subst hxk
      constructor
      · intro h
        cases h
      · intro hv
        exact absurd (List.mem_cons_self _ _) (hv y)
    · rename_i hxk
      rw [ih]
      constructor
      · intro hv v hmem
        rcases List.mem_cons.1 hmem with h1 | h1
        · injection h1 with h1a h1b
          exact hxk h1a.symm
        · exact hv v h1
      · intro hv v hmem
        exact hv v (List.mem_cons_of_mem _ hmem)

theorem mapLookup_some_mem {m : List (Nat × Nat)} {k v : Nat}
    (h : mapLookup m k = some v) : (k, v) ∈ m := by
  induction m with
  | nil => cases h
  | cons e m ih =>
    obtain ⟨x, y⟩ := e
    simp only [mapLookup] at h
    split at h
    · rename_i hxk
      subst hxk
      injection h with h
      subst h
      exact List.mem_cons_self _ _
    · exact List.mem_cons_of_mem _ (ih h)

theorem mem_mapKeys {m : List (Nat × Nat)} {a : Nat} :
    a ∈ mapKeys m ↔ ∃ b, (a, b) ∈ m := by
  simp only [mapKeys, List.mem_map]
  constructor
  · rintro ⟨⟨x, y⟩, hxy, rfl⟩
    exact ⟨y, hxy⟩
  · rintro ⟨b, hb⟩
    exact ⟨(a, b), hb, rfl⟩

theorem mapLookup_eq_none_iff_keys {m : List (Nat × Nat)} {k : Nat} :
    mapLookup m k = none ↔ k ∉ mapKeys m := by
  rw [mapLookup_eq_none]
  simp only [mem_mapKeys, not_exists]

theorem mapLookup_isSome_iff_keys {m : List (Nat × Nat)} {k : Nat} :
    (mapLookup m k).isSome ↔ k ∈ mapKeys m := by
  rcases h : mapLookup m k with _ | v
  · simpa [h] using mapLookup_eq_none_iff_keys.1 h
  · simp only [Option.isSome_some, true_iff]
    exact mem_mapKeys.2 ⟨v, mapLookup_some_mem h⟩

theorem mem_eraseKey {m : List (Nat × Nat)} {k a b : Nat} :
    (a, b) ∈ eraseKey m k ↔ (a, b) ∈ m ∧ a ≠ k := by
  induction m with
  | nil => simp [eraseKey]
  | cons e m ih =>
    obtain ⟨x, y⟩ := e
    simp only [eraseKey]
    split
    · rename_i hxk
      subst hxk
      rw [ih, List.mem_cons]
      constructor
      · rintro ⟨h1, h2⟩
        exact ⟨Or.inr h1, h2⟩
      · rintro ⟨h1 | h1, h2⟩
        · injection h1 with h1a h1b
          exact absurd h1a h2
        · exact ⟨h1, h2⟩
    · rename_i hxk
      rw [List.mem_cons, List.mem_cons, ih]
      constructor
      · rintro (h1 | ⟨h1, h2⟩)
        · injection h1 with h1a h1b
          subst h1a
          subst h1b
          exact ⟨Or.inl rfl, hxk⟩
        · exact ⟨Or.inr h1, h2⟩
      · rintro ⟨h1 | h1, h2⟩
        · exact Or.inl h1
        · exact Or.inr ⟨h1, h2⟩

theorem eraseKey_eq_of_not_mem {m : List (Nat × Nat)} {k : Nat}
    (h : k ∉ mapKeys m) : eraseKey m k = m := by
  induction m with
  | nil => rfl
  | cons e m ih =>
    obtain ⟨x, y⟩ := e
    simp only [mapKeys, List.map_cons, List.mem_cons, not_or] at h
    simp only [eraseKey]
    rw [if_neg (fun hc => h.1 hc.symm), ih (by simpa [mapKeys] using h.2)]

theorem mem_insertKey {m : List (Nat × Nat)} {k v a b : Nat} :
    (a, b) ∈ insertKey m k v ↔ (a = k ∧ b = v) ∨ ((a, b) ∈ m ∧ a ≠ k) := by
  simp only [insertKey, List.mem_cons, mem_eraseKey]
  constructor
  · rintro (h | h)
    · injection h with h1 h2
      exact Or.inl ⟨h1, h2⟩
    · exact Or.inr h
  · rintro (⟨rfl, rfl⟩ | h)
    · exact Or.inl rfl
    · exact Or.inr h

theorem erase_split {m : List (Nat × Nat)} {n p : Nat}
    (hnd : (mapKeys m).Nodup) (hm : (n, p) ∈ m) :
    ∃ l1 l2, m = l1 ++ (n, p) :: l2 ∧ eraseKey m n = l1 ++ l2 := by
  induction m with
  | nil => cases hm
  | cons e m ih =>
    obtain ⟨x, y⟩ := e
    simp only [mapKeys, List.map_cons, List.nodup_cons] at hnd
    rcases List.mem_cons.1 hm with h1 | h1
    · injection h1 with h1a h1b
      subst h1a
      subst h1b
      refine ⟨[], m, by simp, ?_⟩
      simp only [eraseKey, if_pos rfl, List.nil_append]
      exact eraseKey_eq_of_not_mem (by simpa [mapKeys] using hnd.1)
    · have hxn : x ≠ n := by
        rintro rfl
        exact hnd.1 (by simpa [mapKeys] using List.mem_map_of_mem Prod.fst h1)
      obtain ⟨l1, l2, hsplit, herase⟩ := ih hnd.2 h1
      refine ⟨(x, y) :: l1, l2, by simp [hsplit], ?_⟩
      simp only [eraseKey, if_neg hxn, herase, List.cons_append]

theorem keys_eraseKey_nodup {m : List (Nat × Nat)} {k : Nat}
    (hnd : (mapKeys m).Nodup) : (mapKeys (eraseKey m k)).Nodup := by
  induction m with
  | nil => simpa [eraseKey] using hnd
  | cons e m ih =>
    obtain ⟨x, y⟩ := e
    simp only [mapKeys, List.map_cons, List.nodup_cons] at hnd
    simp only [eraseKey]
    split
    · exact ih hnd.2
    · simp only [mapKeys, List.map_cons, List.nodup_cons]
      refine ⟨fun hc => hnd.1 ?_, ih hnd.2⟩
      rcases (mem_mapKeys (m := eraseKey m k)).1 hc with ⟨b, hb⟩
      exact mem_mapKeys.2 ⟨b, (mem_eraseKey.1 hb).1⟩

theorem snd_unique_of_nodup {m : List (Nat × Nat)} {k1 k2 p : Nat}
    (hnd : (m.map Prod.snd).Nodup) (h1 : (k1, p) ∈ m) (h2 : (k2, p) ∈ m) :
    k1 = k2 := by
  induction m with
  | nil => cases h1
  | cons e m ih =>
    obtain ⟨x, y⟩ := e
    simp only [List.map_cons, List.nodup_cons] at hnd
    rcases List.mem_cons.1 h1 with ha | ha <;> rcases List.mem_cons.1 h2 with hb | hb
    · injection ha with ha1 ha2
      injection hb with hb1 hb2
      rw [ha1, hb1]
    · exfalso
      injection ha with ha1 ha2
      subst ha2
      exact hnd.1 (by simpa using List.mem_map_of_mem Prod.snd hb)
    · exfalso
      injection hb with hb1 hb2
      subst hb2
      exact hnd.1 (by simpa using List.mem_map_of_mem Prod.snd ha)
    · exact ih hnd.2 ha hb

theorem fst_unique_of_nodup {m : List (Nat × Nat)} {k p1 p2 : Nat}
    (hnd : (mapKeys m).Nodup) (h1 : (k, p1) ∈ m) (h2 : (k, p2) ∈ m) :
    p1 = p2 := by
  induction m with
  | nil => cases h1
  | cons e m ih =>
    obtain ⟨x, y⟩ := e
    simp only [mapKeys, List.map_cons, List.nodup_cons] at hnd
    rcases List.mem_cons.1 h1 with ha | ha <;> rcases List.mem_cons.1 h2 with hb | hb
    · injection ha with ha1 ha2
      injection hb with hb1 hb2
      rw [ha2, hb2]
    · exfalso
      injection ha with ha1 ha2
      subst ha1
      exact hnd.1 (by simpa [mapKeys] using List.mem_map_of_mem Prod.fst hb)
    · exfalso
      injection hb with hb1 hb2
      subst hb1
      exact hnd.1 (by simpa [mapKeys] using List.mem_map_of_mem Prod.fst ha)
    · exact ih hnd.2 ha hb

theorem length_eraseKey_of_mem {m : List (Nat × Nat)} {n p : Nat}
    (hnd : (mapKeys m).Nodup) (hm : (n, p) ∈ m) :
    (eraseKey m n).length + 1 = m.length := by
  obtain ⟨l1, l2, hsplit, herase⟩ := erase_split hnd hm
  rw [herase, hsplit]
  simp
  omega

theorem length_insertKey_of_not_mem {m : List (Nat × Nat)} {k v : Nat}
    (h : k ∉ mapKeys m) : (insertKey m k v).length = m.length + 1 := by
  simp [insertKey, eraseKey_eq_of_not_mem h]

theorem insertKey_eq_cons_of_not_mem {m : List (Nat × Nat)} {k v : Nat}
    (h : k ∉ mapKeys m) : insertKey m k v = (k, v) :: m := by
  simp [insertKey, eraseKey_eq_of_not_mem h]

/-! ## The free-key search loop -/

theorem findFree_spec {v : Nat} (_hv : 0 < v) :
    ∀ (fuel : Nat) (m : List (Nat × Nat)) (start : Nat),
      (∃ j, j < fuel ∧ mapLookup m (start + j * v) = none) →
      ∃ j, findFree fuel m start v = start + j * v ∧
        mapLookup m (start + j * v) = none ∧
        ∀ i, i < j → mapLookup m (start + i * v) ≠ none := by
  intro fuel
  induction fuel with
  | zero =>
    rintro m start ⟨j, hj, _⟩
    omega
  | succ f ih =>
    rintro m start ⟨j, hj, hnone⟩
    have harith : ∀ t : Nat, start + (t + 1) * v = start + v + t * v := by
      intro t
      ring
    simp only [findFree]
    by_cases hs : (mapLookup m start).isSome
    · rw [if_pos hs]
      have hj0 : j ≠ 0 := by
        rintro rfl
        rw [Nat.zero_mul, Nat.add_zero] at hnone
        rw [hnone] at hs
        cases hs
      obtain ⟨j1, rfl⟩ := Nat.exists_eq_succ_of_ne_zero hj0
      obtain ⟨j2, h1, h2, h3⟩ :=
        ih m (start + v) ⟨j1, by omega, by rw [← harith]; exact hnone⟩
      refine ⟨j2 + 1, ?_, ?_, ?_⟩
      · rw [h1, harith]
      · rw [harith]
        exact h2
      · intro i hi
        cases i with
        | zero =>
          rw [Nat.zero_mul, Nat.add_zero]
          intro hc
          rw [hc] at hs
          cases hs
        | succ i1 =>
          rw [harith]
          exact h3 i1 (by omega)
    · rw [if_neg hs]
      refine ⟨0, by rw [Nat.zero_mul, Nat.add_zero], ?_, by omega⟩
      rw [Nat.zero_mul, Nat.add_zero]
      exact Option.not_isSome_iff_eq_none.1 hs

theorem findFree_exists_free {m : List (Nat × Nat)} {v : Nat} (hv : 0 < v)
    (start : Nat) :
    ∃ j, j < m.length + 1 ∧ mapLookup m (start + j * v) = none := by
  by_contra hcon
  push_neg at hcon
  have hmem : ∀ j, j < m.length + 1 → start + j * v ∈ mapKeys m := by
    intro j hj
    have hne := hcon j hj
    rcases h : mapLookup m (start + j * v) with _ | w
    · exact absurd h hne
    · exact mem_mapKeys.2 ⟨w, mapLookup_some_mem h⟩
  have hnd : ((List.range (m.length + 1)).map fun j => start + j * v).Nodup := by
    refine List.Nodup.map ?_ (List.nodup_range _)
    intro a b hab
    have hab1 : start + a * v = start + b * v := hab
    have hab2 : a * v = b * v := by omega
    exact Nat.eq_of_mul_eq_mul_right hv hab2
  have hcard1 :
      ((List.range (m.length + 1)).map fun j => start + j * v).toFinset.card =
        m.length + 1 := by
    rw [List.toFinset_card_of_nodup hnd]
    simp
  have hcard2 : (mapKeys m).toFinset.card ≤ m.length := by
    have h1 : (mapKeys m).toFinset.card ≤ (mapKeys m).length :=
      List.toFinset_card_le _
    simpa [mapKeys] using h1
  have hss :
      ((List.range (m.length + 1)).map fun j => start + j * v).toFinset ⊆
        (mapKeys m).toFinset := by
    intro x hx
    rw [List.mem_toFinset] at hx ⊢
    obtain ⟨j, hj, rfl⟩ := List.mem_map.1 hx
    exact hmem j (by simpa using hj)
  have := Finset.card_le_card hss
  omega

theorem findFree_found {m : List (Nat × Nat)} {v : Nat} (hv : 0 < v)
    (start : Nat) :
    ∃ j, findFree (m.length + 1) m start v = start + j * v ∧
      mapLookup m (start + j * v) = none ∧
      ∀ i, i < j → mapLookup m (start + i * v) ≠ none :=
  findFree_spec hv _ m start (findFree_exists_free hv start)

/-! ## Fuel monotonicity and determinism of `next` -/

theorem next_mono {f : Nat} :
    ∀ {s : Sieve} {r : Option Nat × Sieve},
      Sieve.next f s = some r → Sieve.next (f + 1) s = some r := by
  induction f with
  | zero =>
    intro s r h
    cases h
  | succ f ih =>
    intro s r h
    rw [Sieve.next] at h ⊢
    rcases hd : s.draw with _ | ⟨n, s1⟩
    · simp only [hd] at h ⊢
      exact h
    · simp only [hd] at h ⊢
      rcases hsc : s1.stepCandidate n with ⟨o, s2⟩
      simp only [hsc] at h ⊢
      cases o with
      | some p => exact h
      | none => exact ih h

theorem next_mono_le {f g : Nat} (hfg : f ≤ g) {s : Sieve}
    {r : Option Nat × Sieve} (h : Sieve.next f s = some r) :
    Sieve.next g s = some r := by
  induction g, hfg using Nat.le_induction with
  | base => exact h
  | succ g hg ih => exact next_mono ih

theorem nextStep_det {s : Sieve} {o1 o2 : Option Nat} {t1 t2 : Sieve}
    (h1 : NextStep s o1 t1) (h2 : NextStep s o2 t2) : o1 = o2 ∧ t1 = t2 := by
  obtain ⟨f1, h1⟩ := h1
  obtain ⟨f2, h2⟩ := h2
  have e1 := next_mono_le (Nat.le_max_left f1 f2) h1
  have e2 := next_mono_le (Nat.le_max_right f1 f2) h2
  rw [e1] at e2
  injection e2 with e2
  exact ⟨congrArg Prod.fst e2, congrArg Prod.snd e2⟩

/-! ## The next prime at or after a cursor position -/

theorem nextPrimeAfter_prime (c : Nat) : (nextPrimeAfter c).Prime :=
  (Nat.find_spec (Nat.exists_infinite_primes c)).2

theorem le_nextPrimeAfter (c : Nat) : c ≤ nextPrimeAfter c :=
  (Nat.find_spec (Nat.exists_infinite_primes c)).1

theorem nextPrimeAfter_le {c p : Nat} (hp : p.Prime) (hcp : c ≤ p) :
    nextPrimeAfter c ≤ p :=
  Nat.find_min' _ ⟨hcp, hp⟩

theorem nextPrimeAfter_eq_of_prime {c : Nat} (hc : c.Prime) :
    nextPrimeAfter c = c :=
  le_antisymm (nextPrimeAfter_le hc le_rfl) (le_nextPrimeAfter c)

theorem lt_nextPrimeAfter_of_not_prime {c : Nat} (hc : ¬ c.Prime) :
    c < nextPrimeAfter c := by
  rcases eq_or_lt_of_le (le_nextPrimeAfter c) with h | h
  · exfalso
    have hp := nextPrimeAfter_prime c
    rw [← h] at hp
    exact hc hp
  · exact h

theorem nextPrimeAfter_succ_of_not_prime {c : Nat} (hc : ¬ c.Prime) :
    nextPrimeAfter (c + 1) = nextPrimeAfter c := by
  have h1 := lt_nextPrimeAfter_of_not_prime hc
  apply le_antisymm
  · exact nextPrimeAfter_le (nextPrimeAfter_prime c) (by omega)
  · exact nextPrimeAfter_le (nextPrimeAfter_prime (c + 1))
      (le_trans (by omega) (le_nextPrimeAfter (c + 1)))

/-! ## The reachability invariant of the sieve -/

/-- The invariant maintained by `Sieve::next` at candidate-loop
granularity: the cursor has passed `2`, keys of the composite map never
lag behind the cursor, every entry `(k, p)` schedules a strict multiple
`k` of the already-emitted prime `p` (so `p < cursor ≤ k`), each prime
below the cursor owns exactly one entry, and every composite at or above
the cursor whose least prime factor has been emitted is covered by an
entry `(k, p)` with `p ∣ c` and `k ≤ c` (the collision-resolution
invariant: the multiples of `p` skipped by its own entry are keys owned
by other primes). -/
structure SieveInv (s : Sieve) : Prop where
  nodupKeys : (mapKeys s.composite).Nodup
  nodupVals : (s.composite.map Prod.snd).Nodup
  two_le : 2 ≤ s.cursor
  entry : ∀ k p, (k, p) ∈ s.composite →
    p.Prime ∧ p ∣ k ∧ s.cursor ≤ k ∧ p < s.cursor
  complete : ∀ p, p.Prime → p < s.cursor → ∃ k, (k, p) ∈ s.composite
  cover : ∀ c, 2 ≤ c → ¬ c.Prime → c.minFac < s.cursor → s.cursor ≤ c →
    ∃ k p, (k, p) ∈ s.composite ∧ p ∣ c ∧ k ≤ c

theorem sieveInv_init (u : Option Nat) : SieveInv ⟨[], 2, u⟩ := by
  refine ⟨by simp [mapKeys], by simp, le_rfl, ?_, ?_, ?_⟩
  · intro k p h
    cases h
  · intro p hp hlt
    have h2 := hp.two_le
    have hlt2 : p < 2 := hlt
    omega
  · intro c h2 hnp hmf hc
    exfalso
    have hp := Nat.minFac_prime (n := c) (by omega)
    have h2m := hp.two_le
    have hmf2 : c.minFac < 2 := hmf
    omega

theorem SieveInv.not_key_of_prime {s : Sieve} (hInv : SieveInv s) {n : Nat}
    (hn : n.Prime) : mapLookup s.composite n = none := by
  rw [mapLookup_eq_none]
  intro v hv
  obtain ⟨hvp, hvd, hk, hvlt⟩ := hInv.entry n v hv
  rcases hn.eq_one_or_self_of_dvd v hvd with h1 | h1
  · have := hvp.two_le
    omega
  · omega

theorem SieveInv.key_of_composite_cursor {s : Sieve} (hInv : SieveInv s)
    (hnp : ¬ s.cursor.Prime) : ∃ p, mapLookup s.composite s.cursor = some p := by
  have h2 := hInv.two_le
  have hmf : s.cursor.minFac < s.cursor := (Nat.not_prime_iff_minFac_lt h2).1 hnp
  obtain ⟨k, p, hmem, hdvd, hk⟩ := hInv.cover s.cursor h2 hnp hmf le_rfl
  have hkc : k = s.cursor := le_antisymm hk (hInv.entry k p hmem).2.2.1
  rw [hkc] at hmem
  rcases hl : mapLookup s.composite s.cursor with _ | q
  · exfalso
    exact (mapLookup_eq_none.1 hl) p hmem
  · exact ⟨q, rfl⟩

/-! ## Preservation of the invariant by one candidate step -/

theorem step_prime {m : List (Nat × Nat)} {c : Nat} {u : Option Nat}
    (hInv : SieveInv ⟨m, c, u⟩) (hp : c.Prime) :
    Sieve.stepCandidate ⟨m, c + 1, u⟩ c = (some c, ⟨(c * c, c) :: m, c + 1, u⟩) ∧
      SieveInv ⟨(c * c, c) :: m, c + 1, u⟩ := by
  have hlook : mapLookup m c = none := hInv.not_key_of_prime hp
  have hcc_not : c * c ∉ mapKeys m := by
    intro hmemk
    obtain ⟨q, hq⟩ := mem_mapKeys.1 hmemk
    obtain ⟨hqp, hqd, hqk, hqlt⟩ := hInv.entry _ _ hq
    have hqc : q ∣ c := ((Nat.Prime.dvd_mul hqp).1 hqd).elim id id
    have hqec : q = c := (Nat.prime_dvd_prime_iff_eq hqp hp).1 hqc
    have hqlt2 : q < c := hqlt
    omega
  have hc_not : c ∉ mapKeys m := mapLookup_eq_none_iff_keys.1 hlook
  have h2 : 2 ≤ c := hp.two_le
  have hcsq : c + 1 ≤ c * c := by
    have := Nat.mul_le_mul_right c h2
    omega
  constructor
  · simp only [Sieve.stepCandidate, hlook]
    rw [insertKey_eq_cons_of_not_mem hcc_not]
  · constructor
    · simp only [mapKeys, List.map_cons, List.nodup_cons]
      exact ⟨by simpa [mapKeys] using hcc_not, hInv.nodupKeys⟩
    · simp only [List.map_cons, List.nodup_cons]
      refine ⟨?_, hInv.nodupVals⟩
      intro hcv
      obtain ⟨⟨a, b⟩, hab, hb⟩ := List.mem_map.1 hcv
      obtain ⟨_, _, _, hlt⟩ := hInv.entry a b hab
      have hlt2 : b < c := hlt
      have hb2 : b = c := hb
      omega
    · show 2 ≤ c + 1
      omega
    · intro k p hmem
      rcases List.mem_cons.1 hmem with h1 | h1
      · injection h1 with h1a h1b
        rw [h1a, h1b]
        refine ⟨hp, dvd_mul_left c c, hcsq, ?_⟩
        show c < c + 1
        omega
      · obtain ⟨hq1, hq2, hq3, hq4⟩ := hInv.entry k p h1
        have hkc : k ≠ c := fun he => hc_not (he ▸ mem_mapKeys.2 ⟨p, h1⟩)
        have hq3b : c ≤ k := hq3
        have hq4b : p < c := hq4
        refine ⟨hq1, hq2, ?_, ?_⟩
        · show c + 1 ≤ k
          omega
        · show p < c + 1
          omega
    · intro p hpp hplt
      have hplt2 : p < c + 1 := hplt
      by_cases hpc : p = c
      · rw [hpc]
        exact ⟨c * c, List.mem_cons_self _ _⟩
      · obtain ⟨k, hk⟩ := hInv.complete p hpp (show p < c by omega)
        exact ⟨k, List.mem_cons_of_mem _ hk⟩
    · intro x h2x hxnp hxmf hxge
      have hxge2 : c + 1 ≤ x := hxge
      have hxmf2 : x.minFac < c + 1 := hxmf
      by_cases hmfc : x.minFac = c
      · have hdvd : c ∣ x := hmfc ▸ Nat.minFac_dvd x
        have hsq : c * c ≤ x := by
          have hs := Nat.minFac_sq_le_self (n := x) (by omega) hxnp
          rw [hmfc, pow_two] at hs
          exact hs
        exact ⟨c * c, c, List.mem_cons_self _ _, hdvd, hsq⟩
      · obtain ⟨k, q, hmem, hqd, hkx⟩ :=
          hInv.cover x h2x hxnp (show x.minFac < c by omega) (show c ≤ x by omega)
        exact ⟨k, q, List.mem_cons_of_mem _ hmem, hqd, hkx⟩

theorem step_composite {m : List (Nat × Nat)} {c : Nat} {u : Option Nat}
    (hInv : SieveInv ⟨m, c, u⟩) (hnp : ¬ c.Prime) :
    ∃ m2, Sieve.stepCandidate ⟨m, c + 1, u⟩ c = (none, ⟨m2, c + 1, u⟩) ∧
      SieveInv ⟨m2, c + 1, u⟩ ∧ m2.length = m.length := by
  have h2 : 2 ≤ c := hInv.two_le
  have hndk : (mapKeys m).Nodup := hInv.nodupKeys
  have hndvals : (m.map Prod.snd).Nodup := hInv.nodupVals
  obtain ⟨p, hlook0⟩ := hInv.key_of_composite_cursor hnp
  have hlook : mapLookup m c = some p := hlook0
  have hmem : (c, p) ∈ m := mapLookup_some_mem hlook
  obtain ⟨hpPrime, hpdvd, hck, hplt⟩ := hInv.entry c p hmem
  have hplt2 : p < c := hplt
  have hp2 : 2 ≤ p := hpPrime.two_le
  have hp0 : 0 < p := by omega
  have hnd1 : (mapKeys (eraseKey m c)).Nodup := keys_eraseKey_nodup hndk
  obtain ⟨j, hkeyEq, hfree, hmin⟩ := findFree_found (m := eraseKey m c) hp0 (c + p)
  set m1 := eraseKey m c with hm1def
  set key := findFree (m1.length + 1) m1 (c + p) p with hkeydef
  have hkey_not : key ∉ mapKeys m1 := by
    rw [← mapLookup_eq_none_iff_keys, hkeyEq]
    exact hfree
  have hcons : insertKey m1 key p = (key, p) :: m1 :=
    insertKey_eq_cons_of_not_mem hkey_not
  obtain ⟨l1, l2, hsplit, herase⟩ := erase_split hndk hmem
  have hvalsm : m.map Prod.snd = l1.map Prod.snd ++ p :: l2.map Prod.snd := by
    rw [hsplit]
    simp
  have hvalsm1 : m1.map Prod.snd = l1.map Prod.snd ++ l2.map Prod.snd := by
    rw [hm1def, herase]
    simp
  have hndv := hndvals
  rw [hvalsm] at hndv
  have hmid := List.nodup_middle.1 hndv
  rw [List.nodup_cons] at hmid
  have hpnot : p ∉ m1.map Prod.snd := by
    rw [hvalsm1]
    exact hmid.1
  have hndv1 : (m1.map Prod.snd).Nodup := by
    rw [hvalsm1]
    exact hmid.2
  have hmem1 : ∀ a b : Nat, (a, b) ∈ m1 ↔ (a, b) ∈ m ∧ a ≠ c :=
    fun a b => mem_eraseKey
  have hpk : p ∣ key := by
    rw [hkeyEq]
    exact dvd_add (dvd_add hpdvd dvd_rfl) (dvd_mul_left p j)
  have hkey_ge : c + 2 ≤ key := by
    rw [hkeyEq]
    omega
  refine ⟨insertKey m1 key p, ?_, ?_, ?_⟩
  · simp only [Sieve.stepCandidate, hlook]
  · rw [hcons]
    constructor
    · simp only [mapKeys, List.map_cons, List.nodup_cons]
      exact ⟨by simpa [mapKeys] using hkey_not, hnd1⟩
    · simp only [List.map_cons, List.nodup_cons]
      exact ⟨hpnot, hndv1⟩
    · show 2 ≤ c + 1
      omega
    · intro a b hab
      rcases List.mem_cons.1 hab with h1 | h1
      · injection h1 with h1a h1b
        rw [h1a, h1b]
        refine ⟨hpPrime, hpk, ?_, ?_⟩
        · show c + 1 ≤ key
          omega
        · show p < c + 1
          omega
      · obtain ⟨hb1, hb2, hb3, hb4⟩ := hInv.entry a b ((hmem1 a b).1 h1).1
        have hanec : a ≠ c := ((hmem1 a b).1 h1).2
        have hb3b : c ≤ a := hb3
        have hb4b : b < c := hb4
        refine ⟨hb1, hb2, ?_, ?_⟩
        · show c + 1 ≤ a
          omega
        · show b < c + 1
          omega
    · intro q hq hqlt
      have hqlt2 : q < c + 1 := hqlt
      have hqnec : q ≠ c := fun he => hnp (he ▸ hq)
      obtain ⟨k0, hk0⟩ := hInv.complete q hq (show q < c by omega)
      by_cases hqp : q = p
      · rw [hqp]
        exact ⟨key, List.mem_cons_self _ _⟩
      · have hk0c : k0 ≠ c := by
          intro he
          rw [he] at hk0
          exact hqp (fst_unique_of_nodup hndk hk0 hmem)
        exact ⟨k0, List.mem_cons_of_mem _ ((hmem1 k0 q).2 ⟨hk0, hk0c⟩)⟩
    · intro x h2x hxnp hxmf hxge
      have hxge2 : c + 1 ≤ x := hxge
      have hxmf2 : x.minFac < c + 1 := hxmf
      have hmfx_ne : x.minFac ≠ c := by
        intro he
        exact hnp (he ▸ Nat.minFac_prime (show x ≠ 1 by omega))
      obtain ⟨k0, q0, hmem0, hq0d, hk0x⟩ :=
        hInv.cover x h2x hxnp (show x.minFac < c by omega) (show c ≤ x by omega)
      by_cases hk0c : k0 = c
      · have hq0p : q0 = p := fst_unique_of_nodup hndk (hk0c ▸ hmem0) hmem
        rw [hq0p] at hq0d
        have hxc : c < x := by omega
        obtain ⟨t, ht⟩ := (Nat.dvd_sub' hq0d hpdvd : p ∣ x - c)
        have ht0 : 1 ≤ t := by
          rcases Nat.eq_zero_or_pos t with h | h
          · rw [h, Nat.mul_zero] at ht
            omega
          · exact h
        have hxval : x = c + p + (t - 1) * p := by
          have h1 : t * p = (t - 1) * p + p := by
            cases t with
            | zero => omega
            | succ t2 => exact Nat.succ_mul t2 p
          have h2m : p * t = t * p := Nat.mul_comm p t
          omega
        by_cases hcmp : key ≤ x
        · exact ⟨key, p, List.mem_cons_self _ _, hq0d, hcmp⟩
        · have ht1j : t - 1 < j := by
            have ha : (t - 1) * p < j * p := by omega
            exact lt_of_mul_lt_mul_right ha (Nat.zero_le p)
          have hlk := hmin (t - 1) ht1j
          rw [← hxval] at hlk
          rcases hl2 : mapLookup m1 x with _ | q2
          · exact absurd hl2 hlk
          · have hxq2 : (x, q2) ∈ m1 := mapLookup_some_mem hl2
            have hxq2m : (x, q2) ∈ m := ((hmem1 x q2).1 hxq2).1
            obtain ⟨_, hq2d, _, _⟩ := hInv.entry x q2 hxq2m
            exact ⟨x, q2, List.mem_cons_of_mem _ hxq2, hq2d, le_rfl⟩
      · exact ⟨k0, q0, List.mem_cons_of_mem _ ((hmem1 k0 q0).2 ⟨hmem0, hk0c⟩),
          hq0d, hk0x⟩
  · rw [hcons]
    have hlen := length_eraseKey_of_mem hndk hmem
    rw [← hm1def] at hlen
    simp only [List.length_cons]
    omega

/-! ## One full `next()` call from an invariant state -/

theorem draw_eq {m : List (Nat × Nat)} {c : Nat} {u : Option Nat}
    (hu : ∀ x, u = some x → c ≤ x) :
    Sieve.draw ⟨m, c, u⟩ = some (c, ⟨m, c + 1, u⟩) := by
  cases u with
  | none => rfl
  | some x =>
    simp only [Sieve.draw]
    rw [if_pos (hu x rfl)]

theorem next_emits_prime :
    ∀ (gap : Nat) (m : List (Nat × Nat)) (c : Nat) (u : Option Nat),
      SieveInv ⟨m, c, u⟩ →
      nextPrimeAfter c - c = gap →
      (∀ x, u = some x → nextPrimeAfter c ≤ x) →
      ∃ m2,
        NextStep ⟨m, c, u⟩ (some (nextPrimeAfter c))
          ⟨m2, nextPrimeAfter c + 1, u⟩ ∧
        SieveInv ⟨m2, nextPrimeAfter c + 1, u⟩ ∧ m2.length = m.length + 1 := by
  intro gap
  induction gap with
  | zero =>
    intro m c u hInv hgap hu
    have hle := le_nextPrimeAfter c
    have hcq : nextPrimeAfter c = c := by omega
    have hcp : c.Prime := by
      have hq := nextPrimeAfter_prime c
      rwa [hcq] at hq
    have hdraw : Sieve.draw ⟨m, c, u⟩ = some (c, ⟨m, c + 1, u⟩) :=
      draw_eq fun x hx => by have := hu x hx; omega
    obtain ⟨hstep, hInv2⟩ := step_prime hInv hcp
    rw [hcq]
    refine ⟨(c * c, c) :: m, ⟨0 + 1, ?_⟩, hInv2, by simp⟩
    simp only [Sieve.next, hdraw, hstep]
  | succ g ih =>
    intro m c u hInv hgap hu
    have hle := le_nextPrimeAfter c
    have hgt : c < nextPrimeAfter c := by omega
    have hcnp : ¬ c.Prime := by
      intro hp
      have := nextPrimeAfter_le hp le_rfl
      omega
    obtain ⟨m2, hstep, hInv2, hlen⟩ := step_composite hInv hcnp
    have hnpa : nextPrimeAfter (c + 1) = nextPrimeAfter c :=
      nextPrimeAfter_succ_of_not_prime hcnp
    obtain ⟨m3, hNext, hInv3, hlen3⟩ :=
      ih m2 (c + 1) u hInv2 (by rw [hnpa]; omega)
        (fun x hx => by rw [hnpa]; exact hu x hx)
    rw [hnpa] at hNext hInv3
    obtain ⟨f, hf⟩ := hNext
    have hdraw : Sieve.draw ⟨m, c, u⟩ = some (c, ⟨m, c + 1, u⟩) :=
      draw_eq fun x hx => by have := hu x hx; omega
    refine ⟨m3, ⟨f + 1, ?_⟩, hInv3, by omega⟩
    simp only [Sieve.next, hdraw, hstep]
    exact hf

theorem next_exhausts :
    ∀ (gap : Nat) (m : List (Nat × Nat)) (c x : Nat),
      SieveInv ⟨m, c, some x⟩ →
      x + 1 - c = gap →
      x < nextPrimeAfter c →
      ∃ m2 c2,
        NextStep ⟨m, c, some x⟩ none ⟨m2, c2, some x⟩ ∧
        SieveInv ⟨m2, c2, some x⟩ ∧ m2.length = m.length ∧ x < c2 ∧ c ≤ c2 := by
  intro gap
  induction gap with
  | zero =>
    intro m c x hInv hgap hlt
    have hdraw : Sieve.draw ⟨m, c, some x⟩ = none := by
      simp only [Sieve.draw]
      rw [if_neg (by omega)]
    refine ⟨m, c, ⟨0 + 1, ?_⟩, hInv, rfl, by omega, le_rfl⟩
    simp only [Sieve.next, hdraw]
  | succ g ih =>
    intro m c x hInv hgap hlt
    have hcx : c ≤ x := by omega
    have hle := le_nextPrimeAfter c
    have hcnp : ¬ c.Prime := by
      intro hp
      have := nextPrimeAfter_le hp le_rfl
      omega
    obtain ⟨m2, hstep, hInv2, hlen⟩ := step_composite hInv hcnp
    have hnpa := nextPrimeAfter_succ_of_not_prime hcnp
    obtain ⟨m3, c3, hNext, hInv3, hlen3, hc3, hcc3⟩ :=
      ih m2 (c + 1) x hInv2 (by omega) (by rw [hnpa]; exact hlt)
    obtain ⟨f, hf⟩ := hNext
    have hdraw : Sieve.draw ⟨m, c, some x⟩ = some (c, ⟨m, c + 1, some x⟩) := by
      simp only [Sieve.draw]
      rw [if_pos hcx]
    refine ⟨m3, c3, ⟨f + 1, ?_⟩, hInv3, by omega, hc3, by omega⟩
    simp only [Sieve.next, hdraw, hstep]
    exact hf

theorem next_emit {m : List (Nat × Nat)} {c : Nat} {u : Option Nat}
    (hInv : SieveInv ⟨m, c, u⟩)
    (hu : ∀ x, u = some x → nextPrimeAfter c ≤ x) :
    ∃ m2,
      NextStep ⟨m, c, u⟩ (some (nextPrimeAfter c))
        ⟨m2, nextPrimeAfter c + 1, u⟩ ∧
      SieveInv ⟨m2, nextPrimeAfter c + 1, u⟩ ∧ m2.length = m.length + 1 :=
  next_emits_prime (nextPrimeAfter c - c) m c u hInv rfl hu

/-! ## Behaviour of an arbitrary `next()` call on an invariant state -/

theorem nextStep_inv {s t : Sieve} {o : Option Nat} (hInv : SieveInv s)
    (h : NextStep s o t) :
    SieveInv t ∧ t.upper = s.upper ∧
      (∀ p, o = some p → p = nextPrimeAfter s.cursor ∧
        t.cursor = nextPrimeAfter s.cursor + 1 ∧
        t.composite.length = s.composite.length + 1) ∧
      (o = none → ∃ x, s.upper = some x ∧ x < nextPrimeAfter s.cursor ∧
        t.composite.length = s.composite.length ∧ x < t.cursor ∧
        s.cursor ≤ t.cursor) := by
  obtain ⟨m, c, u⟩ := s
  by_cases hcase : ∀ x, u = some x → nextPrimeAfter c ≤ x
  · obtain ⟨m2, hstep2, hInv2, hlen2⟩ := next_emit hInv hcase
    obtain ⟨ho, hteq⟩ := nextStep_det h hstep2
    subst hteq
    subst ho
    refine ⟨hInv2, rfl, ?_, ?_⟩
    · intro p hp
      injection hp with hp
      subst hp
      exact ⟨rfl, rfl, hlen2⟩
    · intro hno
      exact Option.noConfusion hno
  · push_neg at hcase
    obtain ⟨x, hux, hxlt⟩ := hcase
    subst hux
    obtain ⟨m3, c3, hstep3, hInv3, hlen3, hc3, hcc3⟩ :=
      next_exhausts (x + 1 - c) m c x hInv rfl hxlt
    obtain ⟨ho, hteq⟩ := nextStep_det h hstep3
    subst hteq
    subst ho
    refine ⟨hInv3, rfl, ?_, ?_⟩
    · intro p hp
      exact Option.noConfusion hp
    · intro _
      exact ⟨x, rfl, hxlt, hlen3, hc3, hcc3⟩

theorem reaches_inv {s t : Sieve} (hInv : SieveInv s) (h : Reaches s t) :
    SieveInv t ∧ t.upper = s.upper := by
  induction h with
  | refl => exact ⟨hInv, rfl⟩
  | step hr hstep ih =>
    obtain ⟨hI, hu⟩ := ih
    obtain ⟨hI2, hu2, _, _⟩ := nextStep_inv hI hstep
    exact ⟨hI2, hu2.trans hu⟩

/-! ## Runs of successful `next()` calls -/

theorem emits_canonical :
    ∀ {s : Sieve} {l : List Nat} {t : Sieve}, Emits s l t → SieveInv s →
      l = primesFrom s.cursor l.length ∧ SieveInv t ∧ t.upper = s.upper ∧
      t.cursor = chainEnd s.cursor l.length ∧
      t.composite.length = s.composite.length + l.length := by
  intro s l t h
  induction h with
  | nil s =>
    intro hInv
    exact ⟨rfl, hInv, rfl, rfl, by simp⟩
  | cons hstep hrest ih =>
    intro hInv
    obtain ⟨hInv1, hu1, hsome, _⟩ := nextStep_inv hInv hstep
    obtain ⟨hp, hcur, hlen⟩ := hsome _ rfl
    obtain ⟨hl, hI, hu2, hc2, hlen2⟩ := ih hInv1
    rw [hcur] at hl hc2
    subst hp
    refine ⟨?_, hI, hu2.trans hu1, ?_, ?_⟩
    · simp only [List.length_cons, primesFrom]
      rw [← hl]
    · simp only [List.length_cons, chainEnd]
      exact hc2
    · simp only [List.length_cons]
      omega

theorem emits_infinite_exists :
    ∀ (k : Nat) (m : List (Nat × Nat)) (c : Nat),
      SieveInv ⟨m, c, none⟩ →
      ∃ t, Emits ⟨m, c, none⟩ (primesFrom c k) t ∧ SieveInv t := by
  intro k
  induction k with
  | zero =>
    intro m c hInv
    exact ⟨⟨m, c, none⟩, Emits.nil _, hInv⟩
  | succ k ih =>
    intro m c hInv
    obtain ⟨m2, hstep, hInv2, _⟩ := next_emit hInv (fun x hx => Option.noConfusion hx)
    obtain ⟨t, hrest, hIt⟩ := ih m2 (nextPrimeAfter c + 1) hInv2
    exact ⟨t, Emits.cons hstep hrest, hIt⟩

/-! ## The boolean primality oracle and `primesBetween` -/

theorem isPrimeB_iff {n : Nat} : isPrimeB n = true ↔ n.Prime := by
  rw [Nat.prime_def_lt]
  simp only [isPrimeB, Bool.and_eq_true, decide_eq_true_eq, List.all_eq_true,
    Bool.or_eq_true, bne_iff_ne, List.mem_range]
  constructor
  · rintro ⟨h2, hall⟩
    refine ⟨h2, fun d hdn hdvd => ?_⟩
    rcases hall d hdn with h | h
    · rcases (show d = 0 ∨ d = 1 by omega) with rfl | rfl
      · exfalso
        have := Nat.eq_zero_of_zero_dvd hdvd
        omega
      · rfl
    · exact absurd (Nat.mod_eq_zero_of_dvd hdvd) h
  · rintro ⟨h2, hmin⟩
    refine ⟨h2, fun d hd => ?_⟩
    by_cases hd2 : d < 2
    · exact Or.inl hd2
    · refine Or.inr fun hmod => ?_
      have hdvd : d ∣ n := Nat.dvd_of_mod_eq_zero hmod
      have := hmin d hd hdvd
      omega

theorem primesBetween_empty {c x : Nat} (hcx : x < c) : primesBetween c x = [] := by
  unfold primesBetween
  rw [show x + 1 - c = 0 by omega]
  rfl

theorem primesBetween_step {c x : Nat} (hcx : c ≤ x) :
    primesBetween c x =
      if isPrimeB c then c :: primesBetween (c + 1) x
      else primesBetween (c + 1) x := by
  unfold primesBetween
  rw [show x + 1 - c = (x - c) + 1 by omega, show x + 1 - (c + 1) = x - c by omega]
  simp only [primesBetweenFuel, if_pos hcx]

theorem primesBetween_nil_aux :
    ∀ (gap c x : Nat), x + 1 - c = gap → x < nextPrimeAfter c →
      primesBetween c x = [] := by
  intro gap
  induction gap with
  | zero =>
    intro c x hg h
    exact primesBetween_empty (by omega)
  | succ g ih =>
    intro c x hg h
    have hcx : c ≤ x := by omega
    have hcnp : ¬ c.Prime := by
      intro hp
      have h1 := nextPrimeAfter_le hp le_rfl
      omega
    rw [primesBetween_step hcx, if_neg (fun hb => hcnp (isPrimeB_iff.1 hb))]
    exact ih (c + 1) x (by omega)
      (by rw [nextPrimeAfter_succ_of_not_prime hcnp]; exact h)

theorem primesBetween_nil_of_no_prime {c x : Nat} (h : x < nextPrimeAfter c) :
    primesBetween c x = [] :=
  primesBetween_nil_aux (x + 1 - c) c x rfl h

theorem primesBetween_cons_aux :
    ∀ (gap c x : Nat), x + 1 - c = gap → nextPrimeAfter c ≤ x →
      primesBetween c x =
        nextPrimeAfter c :: primesBetween (nextPrimeAfter c + 1) x := by
  intro gap
  induction gap with
  | zero =>
    intro c x hg h
    have := le_nextPrimeAfter c
    omega
  | succ g ih =>
    intro c x hg h
    have hc_le := le_nextPrimeAfter c
    have hcx : c ≤ x := by omega
    by_cases hcp : c.Prime
    · rw [primesBetween_step hcx, if_pos (isPrimeB_iff.2 hcp),
        nextPrimeAfter_eq_of_prime hcp]
    · rw [primesBetween_step hcx, if_neg (fun hb => hcp (isPrimeB_iff.1 hb))]
      have hrec := ih (c + 1) x (by omega)
        (by rw [nextPrimeAfter_succ_of_not_prime hcp]; exact h)
      rw [nextPrimeAfter_succ_of_not_prime hcp] at hrec
      exact hrec

theorem primesBetween_cons_of_prime {c x : Nat} (h : nextPrimeAfter c ≤ x) :
    primesBetween c x =
      nextPrimeAfter c :: primesBetween (nextPrimeAfter c + 1) x :=
  primesBetween_cons_aux (x + 1 - c) c x rfl h

theorem emits_bounded_aux :
    ∀ (gap : Nat) (m : List (Nat × Nat)) (c x : Nat),
      SieveInv ⟨m, c, some x⟩ → x + 1 - c ≤ gap →
      ∃ t t2, Emits ⟨m, c, some x⟩ (primesBetween c x) t ∧ SieveInv t ∧
        NextStep t none t2 ∧ SieveInv t2 ∧ t2.upper = some x := by
  intro gap
  induction gap with
  | zero =>
    intro m c x hInv hle
    have hnpx : x < nextPrimeAfter c := by
      have := le_nextPrimeAfter c
      omega
    obtain ⟨m3, c3, hstep, hInv3, _, _, _⟩ :=
      next_exhausts (x + 1 - c) m c x hInv rfl hnpx
    refine ⟨⟨m, c, some x⟩, ⟨m3, c3, some x⟩, ?_, hInv, hstep, hInv3, rfl⟩
    rw [primesBetween_nil_of_no_prime hnpx]
    exact Emits.nil _
  | succ g ih =>
    intro m c x hInv hle
    by_cases hnpx : nextPrimeAfter c ≤ x
    · have hc_le := le_nextPrimeAfter c
      obtain ⟨m2, hstep, hInv2, _⟩ :=
        next_emit hInv (fun y hy => by injection hy with hy; omega)
      obtain ⟨t, t2, hemits, hIt, hnone, hIt2, hu2⟩ :=
        ih m2 (nextPrimeAfter c + 1) x hInv2 (by omega)
      refine ⟨t, t2, ?_, hIt, hnone, hIt2, hu2⟩
      rw [primesBetween_cons_of_prime hnpx]
      exact Emits.cons hstep hemits
    · push_neg at hnpx
      obtain ⟨m3, c3, hstep, hInv3, _, _, _⟩ :=
        next_exhausts (x + 1 - c) m c x hInv rfl hnpx
      refine ⟨⟨m, c, some x⟩, ⟨m3, c3, some x⟩, ?_, hInv, hstep, hInv3, rfl⟩
      rw [primesBetween_nil_of_no_prime hnpx]
      exact Emits.nil _

theorem emits_bounded_exists (m : List (Nat × Nat)) (c x : Nat)
    (hInv : SieveInv ⟨m, c, some x⟩) :
    ∃ t t2, Emits ⟨m, c, some x⟩ (primesBetween c x) t ∧ SieveInv t ∧
      NextStep t none t2 ∧ SieveInv t2 ∧ t2.upper = some x :=
  emits_bounded_aux (x + 1 - c) m c x hInv le_rfl

/-! ## Permanence of exhaustion -/

theorem none_step_final :
    ∀ (f : Nat) {s t : Sieve}, Sieve.next f s = some (none, t) →
      Sieve.draw t = none := by
  intro f
  induction f with
  | zero =>
    intro s t h
    cases h
  | succ f ih =>
    intro s t h
    rw [Sieve.next] at h
    rcases hd : s.draw with _ | ⟨n, s1⟩
    · simp only [hd] at h
      injection h with h
      injection h with h1 h2
      subst h2
      exact hd
    · simp only [hd] at h
      rcases hsc : s1.stepCandidate n with ⟨o, s2⟩
      simp only [hsc] at h
      cases o with
      | some p =>
        injection h with h
        injection h with h1 h2
        exact Option.noConfusion h1
      | none => exact ih h

theorem nextStep_after_none {s t : Sieve} (h : NextStep s none t) :
    ∀ o t2, NextStep t o t2 → o = none ∧ t2 = t := by
  obtain ⟨f, hf⟩ := h
  have hdraw := none_step_final f hf
  intro o t2 h2
  have hstep : NextStep t none t := ⟨0 + 1, by simp only [Sieve.next, hdraw]⟩
  exact nextStep_det h2 hstep

/-! ## Relating the fuelled runner to `Emits` -/

theorem runPrimes_emits :
    ∀ (count fuel : Nat) (s : Sieve),
      Emits s (runPrimes fuel count s).1 (runPrimes fuel count s).2 := by
  intro count
  induction count with
  | zero =>
    intro fuel s
    exact Emits.nil s
  | succ k ih =>
    intro fuel s
    rw [runPrimes]
    rcases hn : Sieve.next fuel s with _ | ⟨o, s1⟩
    · exact Emits.nil s
    · cases o with
      | some p =>
        simp only []
        exact Emits.cons ⟨fuel, hn⟩ (ih fuel s1)
      | none =>
        exact Emits.nil s

/-! ## The `Nat.nth Nat.Prime` oracle -/

theorem nth_prime_zero : Nat.nth Nat.Prime 0 = 2 := by
  have h := Nat.nth_count (p := Nat.Prime) (n := 2) Nat.prime_two
  have hc : Nat.count Nat.Prime 2 = 0 := by
    rw [Nat.count_succ, Nat.count_succ, Nat.count_zero]
    simp [Nat.not_prime_zero, Nat.not_prime_one]
  rw [hc] at h
  exact h

theorem nth_prime_le_of_lt {k q : Nat} (hq : q.Prime)
    (hgt : Nat.nth Nat.Prime k < q) : Nat.nth Nat.Prime (k + 1) ≤ q := by
  have hinf := Nat.infinite_setOf_prime
  have hqq := Nat.nth_count (p := Nat.Prime) hq
  have hck : k + 1 ≤ Nat.count Nat.Prime q := by
    by_contra hcon
    push_neg at hcon
    have hmono : Nat.nth Nat.Prime (Nat.count Nat.Prime q) ≤ Nat.nth Nat.Prime k :=
      Nat.nth_monotone hinf (show Nat.count Nat.Prime q ≤ k by omega)
    rw [hqq] at hmono
    omega
  have hmono : Nat.nth Nat.Prime (k + 1) ≤ Nat.nth Nat.Prime (Nat.count Nat.Prime q) :=
    Nat.nth_monotone hinf hck
  rw [hqq] at hmono
  exact hmono

theorem nth_prime_succ (k : Nat) :
    Nat.nth Nat.Prime (k + 1) = nextPrimeAfter (Nat.nth Nat.Prime k + 1) := by
  have hinf := Nat.infinite_setOf_prime
  apply le_antisymm
  · exact nth_prime_le_of_lt (nextPrimeAfter_prime _)
      (by have := le_nextPrimeAfter (Nat.nth Nat.Prime k + 1); omega)
  · refine nextPrimeAfter_le (Nat.nth_mem_of_infinite hinf (k + 1)) ?_
    have hlt : Nat.nth Nat.Prime k < Nat.nth Nat.Prime (k + 1) :=
      Nat.nth_strictMono (p := Nat.Prime) hinf (Nat.lt_succ_self k)
    omega

theorem primesFrom_eq_nth :
    ∀ (k i : Nat),
      primesFrom (Nat.nth Nat.Prime i + 1) k =
        (List.range k).map fun j => Nat.nth Nat.Prime (i + 1 + j) := by
  intro k
  induction k with
  | zero =>
    intro i
    rfl
  | succ k ih =>
    intro i
    rw [primesFrom, ← nth_prime_succ i, ih (i + 1), List.range_succ_eq_map,
      List.map_cons, List.map_map]
    congr 1
    apply List.map_congr_left
    intro j hj
    simp only [Function.comp_apply]
    congr 1
    omega

theorem primesFrom_two_eq_nth (k : Nat) :
    primesFrom 2 k = (List.range k).map (Nat.nth Nat.Prime) := by
  cases k with
  | zero => rfl
  | succ k =>
    rw [primesFrom, nextPrimeAfter_eq_of_prime Nat.prime_two]
    have h := primesFrom_eq_nth k 0
    rw [nth_prime_zero] at h
    rw [h, List.range_succ_eq_map, List.map_cons, List.map_map]
    congr 1
    · exact nth_prime_zero.symm
    · apply List.map_congr_left
      intro j hj
      simp only [Function.comp_apply]
      congr 1
      omega

/-! ## Consequences: cursor and size monotonicity, membership facts -/

theorem nextStep_cursor_le {s t : Sieve} {o : Option Nat}
    (hInv : SieveInv s) (h : NextStep s o t) : s.cursor ≤ t.cursor := by
  obtain ⟨_, _, hsome, hnone⟩ := nextStep_inv hInv h
  cases o with
  | some p =>
    obtain ⟨_, hcur, _⟩ := hsome p rfl
    have := le_nextPrimeAfter s.cursor
    omega
  | none =>
    obtain ⟨x, _, _, _, _, hle⟩ := hnone rfl
    exact hle

theorem nextStep_size_le {s t : Sieve} {o : Option Nat}
    (hInv : SieveInv s) (h : NextStep s o t) :
    s.composite.length ≤ t.composite.length := by
  obtain ⟨_, _, hsome, hnone⟩ := nextStep_inv hInv h
  cases o with
  | some p =>
    obtain ⟨_, _, hlen⟩ := hsome p rfl
    omega
  | none =>
    obtain ⟨x, _, _, hlen, _, _⟩ := hnone rfl
    omega

theorem reaches_cursor_le {s t : Sieve} (hInv : SieveInv s) (h : Reaches s t) :
    s.cursor ≤ t.cursor := by
  induction h with
  | refl => exact le_rfl
  | step hr hstep ih =>
    have hI := (reaches_inv hInv hr).1
    exact le_trans ih (nextStep_cursor_le hI hstep)

theorem reaches_size_le {s t : Sieve} (hInv : SieveInv s) (h : Reaches s t) :
    s.composite.length ≤ t.composite.length := by
  induction h with
  | refl => exact le_rfl
  | step hr hstep ih =>
    have hI := (reaches_inv hInv hr).1
    exact le_trans ih (nextStep_size_le hI hstep)

theorem le_chainEnd : ∀ (k c : Nat), c ≤ chainEnd c k := by
  intro k
  induction k with
  | zero =>
    intro c
    exact le_rfl
  | succ k ih =>
    intro c
    rw [chainEnd]
    have h1 := le_nextPrimeAfter c
    have h2 := ih (nextPrimeAfter c + 1)
    omega

theorem mem_primesFrom :
    ∀ (k c x : Nat),
      x ∈ primesFrom c k ↔ x.Prime ∧ c ≤ x ∧ x < chainEnd c k := by
  intro k
  induction k with
  | zero =>
    intro c x
    simp only [primesFrom, List.not_mem_nil, chainEnd, false_iff, not_and]
    intro h1 h2
    omega
  | succ k ih =>
    intro c x
    rw [primesFrom, List.mem_cons, ih, chainEnd]
    constructor
    · rintro (rfl | ⟨hp, hge, hlt⟩)
      · refine ⟨nextPrimeAfter_prime c, le_nextPrimeAfter c, ?_⟩
        have := le_chainEnd k (nextPrimeAfter c + 1)
        omega
      · refine ⟨hp, ?_, hlt⟩
        have := le_nextPrimeAfter c
        omega
    · rintro ⟨hp, hge, hlt⟩
      by_cases hx : x = nextPrimeAfter c
      · exact Or.inl hx
      · right
        have := nextPrimeAfter_le hp hge
        exact ⟨hp, by omega, hlt⟩

theorem primesFrom_pairwise :
    ∀ (k c : Nat), (primesFrom c k).Pairwise (· < ·) := by
  intro k
  induction k with
  | zero =>
    intro c
    exact List.Pairwise.nil
  | succ k ih =>
    intro c
    rw [primesFrom]
    refine List.Pairwise.cons ?_ (ih _)
    intro x hx
    have := (mem_primesFrom k (nextPrimeAfter c + 1) x).1 hx
    omega

theorem mem_primesBetween :
    ∀ (gap c u x : Nat), u + 1 - c ≤ gap →
      (x ∈ primesBetween c u ↔ x.Prime ∧ c ≤ x ∧ x ≤ u) := by
  intro gap
  induction gap with
  | zero =>
    intro c u x hle
    rw [primesBetween_empty (by omega)]
    simp only [List.not_mem_nil, false_iff, not_and]
    intro h1 h2
    omega
  | succ g ih =>
    intro c u x hle
    by_cases hcu : c ≤ u
    · rw [primesBetween_step hcu]
      by_cases hcp : c.Prime
      · rw [if_pos (isPrimeB_iff.2 hcp), List.mem_cons, ih (c + 1) u x (by omega)]
        constructor
        · rintro (rfl | ⟨hp, hge, hlt⟩)
          · exact ⟨hcp, le_rfl, hcu⟩
          · exact ⟨hp, by omega, hlt⟩
        · rintro ⟨hp, hge, hlt⟩
          by_cases hx : x = c
          · exact Or.inl hx
          · exact Or.inr ⟨hp, by omega, hlt⟩
      · rw [if_neg (fun hb => hcp (isPrimeB_iff.1 hb)), ih (c + 1) u x (by omega)]
        constructor
        · rintro ⟨hp, hge, hlt⟩
          exact ⟨hp, by omega, hlt⟩
        · rintro ⟨hp, hge, hlt⟩
          have hx : x ≠ c := fun he => hcp (he ▸ hp)
          exact ⟨hp, by omega, hlt⟩
    · rw [primesBetween_empty (by omega)]
      simp only [List.not_mem_nil, false_iff, not_and]
      intro h1 h2
      omega

theorem primesBetween_pairwise :
    ∀ (gap c u : Nat), u + 1 - c ≤ gap →
      (primesBetween c u).Pairwise (· < ·) := by
  intro gap
  induction gap with
  | zero =>
    intro c u hle
    rw [primesBetween_empty (by omega)]
    exact List.Pairwise.nil
  | succ g ih =>
    intro c u hle
    by_cases hcu : c ≤ u
    · rw [primesBetween_step hcu]
      by_cases hcp : c.Prime
      · rw [if_pos (isPrimeB_iff.2 hcp)]
        refine List.Pairwise.cons ?_ (ih (c + 1) u (by omega))
        intro x hx
        have := (mem_primesBetween (u + 1 - (c + 1)) (c + 1) u x le_rfl).1 hx
        omega
      · rw [if_neg (fun hb => hcp (isPrimeB_iff.1 hb))]
        exact ih (c + 1) u (by omega)
    · rw [primesBetween_empty (by omega)]
      exact List.Pairwise.nil

theorem SieveInv.unique_entry {s : Sieve} (hInv : SieveInv s) {p : Nat}
    (hp : p.Prime) (hlt : p < s.cursor) : ∃! k, (k, p) ∈ s.composite := by
  obtain ⟨k, hk⟩ := hInv.complete p hp hlt
  exact ⟨k, hk, fun k2 hk2 => snd_unique_of_nodup hInv.nodupVals hk2 hk⟩

theorem emits_none_unique :
    ∀ {s : Sieve} {l : List Nat} {t t2 : Sieve}, Emits s l t →
      NextStep t none t2 →
      ∀ {l' : List Nat} {t' t2' : Sieve}, Emits s l' t' →
        NextStep t' none t2' → l = l' := by
  intro s l t t2 h1
  induction h1 with
  | nil =>
    intro hn1 l' t' t2' h2 hn2
    cases h2 with
    | nil => rfl
    | cons hstep2 hrest2 =>
      exact Option.noConfusion (nextStep_det hn1 hstep2).1
  | cons hstep hrest ih =>
    intro hn1 l' t' t2' h2 hn2
    cases h2 with
    | nil => exact Option.noConfusion (nextStep_det hn2 hstep).1
    | cons hstep2 hrest2 =>
      obtain ⟨ho, hs⟩ := nextStep_det hstep hstep2
      injection ho with ho
      subst ho
      subst hs
      rw [ih hn1 hrest2 hn2]

set_option maxRecDepth 10000

/-! ## The claims -/

/-- C1: for every k ≥ 1 the first k values produced by repeated `next()`
calls on the unbounded sieve `infinite()` are exactly the first k primes in
increasing order (`Nat.nth Nat.Prime` is the oracle): such a run exists
for every k, every run emits exactly that prefix, and in particular the
first 100 values are 2, 3, 5, ..., 541.  (All values stay far below
`2^32`, so the Nat embedding agrees with the `u32` instantiation.) -/
theorem c1_unbounded_first_k_primes :
    (∀ k : Nat, ∃ t, Emits infinite ((List.range k).map (Nat.nth Nat.Prime)) t) ∧
    (∀ (l : List Nat) (t : Sieve), Emits infinite l t →
      l = (List.range l.length).map (Nat.nth Nat.Prime)) ∧
    (∃ t, Emits infinite
      [2, 3, 5, 7, 11, 13, 17, 19, 23, 29, 31, 37, 41, 43, 47, 53, 59, 61,
       67, 71, 73, 79, 83, 89, 97, 101, 103, 107, 109, 113, 127, 131, 137,
       139, 149, 151, 157, 163, 167, 173, 179, 181, 191, 193, 197, 199, 211,
       223, 227, 229, 233, 239, 241, 251, 257, 263, 269, 271, 277, 281, 283,
       293, 307, 311, 313, 317, 331, 337, 347, 349, 353, 359, 367, 373, 379,
       383, 389, 397, 401, 409, 419, 421, 431, 433, 439, 443, 449, 457, 461,
       463, 467, 479, 487, 491, 499, 503, 509, 521, 523, 541] t) := by
  refine ⟨?_, ?_, ?_⟩
  · intro k
    obtain ⟨t, hem, _⟩ := emits_infinite_exists k [] 2 (sieveInv_init none)
    rw [primesFrom_two_eq_nth] at hem
    exact ⟨t, hem⟩
  · intro l t hem
    have h1 : l = primesFrom 2 l.length := (emits_canonical hem (sieveInv_init none)).1
    rw [primesFrom_two_eq_nth] at h1
    exact h1
  · refine ⟨(runPrimes 600 100 infinite).2, ?_⟩
    have h := runPrimes_emits 100 600 infinite
    have he : (runPrimes 600 100 infinite).1 =
        [2, 3, 5, 7, 11, 13, 17, 19, 23, 29, 31, 37, 41, 43, 47, 53, 59, 61,
         67, 71, 73, 79, 83, 89, 97, 101, 103, 107, 109, 113, 127, 131, 137,
         139, 149, 151, 157, 163, 167, 173, 179, 181, 191, 193, 197, 199, 211,
         223, 227, 229, 233, 239, 241, 251, 257, 263, 269, 271, 277, 281, 283,
         293, 307, 311, 313, 317, 331, 337, 347, 349, 353, 359, 367, 373, 379,
         383, 389, 397, 401, 409, 419, 421, 431, 433, 439, 443, 449, 457, 461,
         463, 467, 479, 487, 491, 499, 503, 509, 521, 523, 541] := by decide
    rw [he] at h
    exact h

theorem c1_unbounded_first_k_primes_witness :
    [2, 3] = (List.range ([2, 3] : List Nat).length).map (Nat.nth Nat.Prime) := by
  have hr := runPrimes_emits 2 10 infinite
  have he : (runPrimes 10 2 infinite).1 = [2, 3] := by decide
  rw [he] at hr
  exact c1_unbounded_first_k_primes.2.1 [2, 3] (runPrimes 10 2 infinite).2 hr

/-- C2: for every bound B, `bounded(B)` emits exactly the primes ≤ B
(inclusive bound, per `2..=upper` in the source) in increasing order and
then `next()` returns `None`; every complete run emits that same list; in
particular `bounded(100)` yields the 25 primes from 2 through 97. -/
theorem c2_bounded_primes_up_to :
    (∀ B : Nat,
      ∃ t t2, Emits (bounded B) (primesBetween 2 B) t ∧ NextStep t none t2 ∧
        (∀ (l : List Nat) (t' t2' : Sieve), Emits (bounded B) l t' →
          NextStep t' none t2' → l = primesBetween 2 B) ∧
        (∀ x, x ∈ primesBetween 2 B ↔ x.Prime ∧ x ≤ B) ∧
        (primesBetween 2 B).Pairwise (· < ·)) ∧
    primesBetween 2 100 =
      [2, 3, 5, 7, 11, 13, 17, 19, 23, 29, 31, 37, 41, 43, 47, 53, 59, 61,
       67, 71, 73, 79, 83, 89, 97] ∧
    (primesBetween 2 100).length = 25 := by
  refine ⟨?_, by decide, by decide⟩
  intro B
  obtain ⟨t, t2, hem, _, hnone, _, _⟩ :=
    emits_bounded_exists [] 2 B (sieveInv_init (some B))
  refine ⟨t, t2, hem, hnone, ?_, ?_,
    primesBetween_pairwise (B + 1 - 2) 2 B le_rfl⟩
  · intro l t' t2' hem2 hnone2
    exact emits_none_unique hem2 hnone2 hem hnone
  · intro x
    rw [mem_primesBetween (B + 1 - 2) 2 B x le_rfl]
    constructor
    · rintro ⟨hp, _, hb⟩
      exact ⟨hp, hb⟩
    · rintro ⟨hp, hb⟩
      exact ⟨hp, hp.two_le, hb⟩

theorem c2_bounded_primes_up_to_witness :
    [2, 3, 5, 7] = primesBetween 2 10 := by
  obtain ⟨t, t2, hem, hnone, huniq, _, _⟩ := c2_bounded_primes_up_to.1 10
  have hr := runPrimes_emits 4 20 (bounded 10)
  have he : (runPrimes 20 4 (bounded 10)).1 = [2, 3, 5, 7] := by decide
  rw [he] at hr
  exact huniq [2, 3, 5, 7] (runPrimes 20 4 (bounded 10)).2
    ((Sieve.next 5 (runPrimes 20 4 (bounded 10)).2).getD
      (none, (runPrimes 20 4 (bounded 10)).2)).2 hr ⟨5, by decide⟩

/-- C3: one iteration of the candidate loop, for any drawn candidate n.
If n is a key with value p, the entry is removed, the smallest key of the
form n + j·p (j ≥ 1) not present in the (post-removal) map is inserted
with value p, and no prime is returned; if n is not a key, (n², n) is
inserted and n is returned.  (The hypothesis 0 < p always holds on
reachable states, where map values are primes.) -/
theorem c3_candidate_step (s1 : Sieve) (n : Nat) :
    (∀ p, mapLookup s1.composite n = some p → 0 < p →
      ∃ j, 1 ≤ j ∧
        mapLookup (eraseKey s1.composite n) (n + j * p) = none ∧
        (∀ i, 1 ≤ i → i < j →
          mapLookup (eraseKey s1.composite n) (n + i * p) ≠ none) ∧
        s1.stepCandidate n =
          (none, (⟨insertKey (eraseKey s1.composite n) (n + j * p) p,
            s1.cursor, s1.upper⟩ : Sieve))) ∧
    (mapLookup s1.composite n = none →
      s1.stepCandidate n =
        (some n, (⟨insertKey s1.composite (n * n) n,
          s1.cursor, s1.upper⟩ : Sieve))) := by
  constructor
  · intro p hlook hp
    obtain ⟨j0, hkeyEq, hfree, hmin⟩ :=
      findFree_found (m := eraseKey s1.composite n) hp (n + p)
    have harith : ∀ t : Nat, n + p + t * p = n + (t + 1) * p := by
      intro t
      ring
    refine ⟨j0 + 1, by omega, ?_, ?_, ?_⟩
    · rw [← harith]
      exact hfree
    · intro i h1 h2
      obtain ⟨i0, rfl⟩ := Nat.exists_eq_succ_of_ne_zero (by omega : i ≠ 0)
      rw [← harith]
      exact hmin i0 (by omega)
    · simp only [Sieve.stepCandidate, hlook]
      rw [hkeyEq, harith]
  · intro hlook
    simp only [Sieve.stepCandidate, hlook]

theorem c3_candidate_step_witness :
    (∃ j, 1 ≤ j ∧
      mapLookup (eraseKey ([(4, 2), (9, 3)] : List (Nat × Nat)) 4) (4 + j * 2) = none ∧
      (∀ i, 1 ≤ i → i < j →
        mapLookup (eraseKey ([(4, 2), (9, 3)] : List (Nat × Nat)) 4) (4 + i * 2) ≠ none) ∧
      Sieve.stepCandidate ⟨[(4, 2), (9, 3)], 5, none⟩ 4 =
        (none, ⟨insertKey (eraseKey [(4, 2), (9, 3)] 4) (4 + j * 2) 2, 5, none⟩)) ∧
    Sieve.stepCandidate ⟨[(4, 2)], 6, none⟩ 5 =
      (some 5, ⟨insertKey [(4, 2)] (5 * 5) 5, 6, none⟩) :=
  ⟨(c3_candidate_step ⟨[(4, 2), (9, 3)], 5, none⟩ 4).1 2 (by decide) (by decide),
    (c3_candidate_step ⟨[(4, 2)], 6, none⟩ 5).2 (by decide)⟩

/-- C4: for both configurations (unbounded, or bounded with any limit) the
values returned by successive `next()` calls are strictly increasing: no
duplicates, never out of order. -/
theorem c4_outputs_strictly_increasing :
    (∀ (l : List Nat) (t : Sieve), Emits infinite l t → l.Pairwise (· < ·)) ∧
    (∀ (B : Nat) (l : List Nat) (t : Sieve), Emits (bounded B) l t →
      l.Pairwise (· < ·)) := by
  constructor
  · intro l t h
    have h1 : l = primesFrom 2 l.length := (emits_canonical h (sieveInv_init none)).1
    rw [h1]
    exact primesFrom_pairwise _ _
  · intro B l t h
    have h1 : l = primesFrom 2 l.length :=
      (emits_canonical h (sieveInv_init (some B))).1
    rw [h1]
    exact primesFrom_pairwise _ _

theorem c4_outputs_strictly_increasing_witness :
    ([2, 3] : List Nat).Pairwise (· < ·) := by
  have hr := runPrimes_emits 2 10 infinite
  have he : (runPrimes 10 2 infinite).1 = [2, 3] := by decide
  rw [he] at hr
  exact c4_outputs_strictly_increasing.1 [2, 3] (runPrimes 10 2 infinite).2 hr

/-- C5: for every prime p emitted by the sieve (in either configuration),
at the end of the emitting run and at every later point there is exactly
one live map entry whose value is p, and every such entry's key is a
multiple of p; consequently after emitting k primes `size()` returns
exactly k. -/
theorem c5_unique_entry_per_emitted_prime :
    ∀ (s0 : Sieve), (s0 = infinite ∨ ∃ B, s0 = bounded B) →
    ∀ (l : List Nat) (t t2 : Sieve), Emits s0 l t → Reaches t t2 →
      (∀ p, p ∈ l →
        (∃! k, (k, p) ∈ t2.composite) ∧
        (∀ k, (k, p) ∈ t2.composite → p ∣ k)) ∧
      t.size = l.length := by
  intro s0 hs0 l t t2 hem hreach
  have hInv0 : SieveInv s0 := by
    rcases hs0 with rfl | ⟨B, rfl⟩
    · exact sieveInv_init none
    · exact sieveInv_init (some B)
  obtain ⟨hl, hIt, _, hcur, hlen⟩ := emits_canonical hem hInv0
  have hIt2 := (reaches_inv hIt hreach).1
  have hcurle := reaches_cursor_le hIt hreach
  constructor
  · intro p hp
    rw [hl] at hp
    have hmem := (mem_primesFrom _ _ _).1 hp
    have hp3 : p < t.cursor := by
      rw [hcur]
      exact hmem.2.2
    have hplt : p < t2.cursor := by omega
    exact ⟨hIt2.unique_entry hmem.1 hplt,
      fun k hk => (hIt2.entry k p hk).2.1⟩
  · have hz : s0.composite.length = 0 := by
      rcases hs0 with rfl | ⟨B, rfl⟩ <;> rfl
    show t.composite.length = l.length
    omega

theorem c5_unique_entry_per_emitted_prime_witness :
    ((∃! k, (k, (2 : Nat)) ∈ (⟨[(4, 2)], 3, none⟩ : Sieve).composite) ∧
      (∀ k, (k, 2) ∈ (⟨[(4, 2)], 3, none⟩ : Sieve).composite → 2 ∣ k)) ∧
    (⟨[(4, 2)], 3, none⟩ : Sieve).size = ([2] : List Nat).length := by
  have hem : Emits infinite [2] ⟨[(4, 2)], 3, none⟩ :=
    Emits.cons ⟨1, by decide⟩ (Emits.nil _)
  have h := c5_unique_entry_per_emitted_prime infinite (Or.inl rfl) [2]
    ⟨[(4, 2)], 3, none⟩ ⟨[(4, 2)], 3, none⟩ hem (Reaches.refl _)
  exact ⟨h.1 2 (List.mem_singleton.2 rfl), h.2⟩

/-- C6: in every reachable state of either configuration, every key in
the composite map is ≥ the cursor (the next candidate to be examined),
and no number below the cursor is still a key: composites already passed
have been consumed and removed. -/
theorem c6_keys_at_or_after_cursor :
    ∀ (s0 : Sieve), (s0 = infinite ∨ ∃ B, s0 = bounded B) →
    ∀ t : Sieve, Reaches s0 t →
      (∀ k p, (k, p) ∈ t.composite → t.cursor ≤ k) ∧
      (∀ c, c < t.cursor → c ∉ mapKeys t.composite) := by
  intro s0 hs0 t hr
  have hInv0 : SieveInv s0 := by
    rcases hs0 with rfl | ⟨B, rfl⟩
    · exact sieveInv_init none
    · exact sieveInv_init (some B)
  have hIt := (reaches_inv hInv0 hr).1
  refine ⟨fun k p hk => (hIt.entry k p hk).2.2.1, fun c hc hmem => ?_⟩
  obtain ⟨b, hb⟩ := mem_mapKeys.1 hmem
  have := (hIt.entry c b hb).2.2.1
  omega

theorem c6_keys_at_or_after_cursor_witness :
    (∀ k p, (k, p) ∈ infinite.composite → infinite.cursor ≤ k) ∧
    (∀ c, c < infinite.cursor → c ∉ mapKeys infinite.composite) :=
  c6_keys_at_or_after_cursor infinite (Or.inl rfl) infinite (Reaches.refl _)

/-- C7: for every upper limit below 2 the bounded sieve's candidate range
`2..=upper` is empty, so the very first `next()` call returns `None`
(normal end-of-sequence, not an error) without emitting any prime and
without touching the state. -/
theorem c7_bounded_below_two_empty (u : Nat) (hu : u < 2) :
    NextStep (bounded u) none (bounded u) := by
  refine ⟨0 + 1, ?_⟩
  have hdraw : Sieve.draw (bounded u) = none := by
    simp only [bounded, Sieve.draw]
    rw [if_neg (by omega)]
  simp only [Sieve.next, hdraw]

theorem c7_bounded_below_two_empty_witness :
    1 < 2 ∧ NextStep (bounded 1) none (bounded 1) ∧
      0 < 2 ∧ NextStep (bounded 0) none (bounded 0) :=
  ⟨by decide, c7_bounded_below_two_empty 1 (by decide),
    by decide, c7_bounded_below_two_empty 0 (by decide)⟩

/-- C8: `size()` is non-decreasing along any pair of ordered observation
points of either configuration, and every `next()` call that emits a
prime increases `size()` by exactly one (so `size()` strictly increases
between consecutive prime emissions). -/
theorem c8_size_monotone :
    ∀ (s0 : Sieve), (s0 = infinite ∨ ∃ B, s0 = bounded B) →
    ∀ (s t : Sieve), Reaches s0 s → Reaches s t →
      s.size ≤ t.size ∧
      ∀ (p : Nat) (t' : Sieve), NextStep s (some p) t' → t'.size = s.size + 1 := by
  intro s0 hs0 s t hr1 hr2
  have hInv0 : SieveInv s0 := by
    rcases hs0 with rfl | ⟨B, rfl⟩
    · exact sieveInv_init none
    · exact sieveInv_init (some B)
  have hIs := (reaches_inv hInv0 hr1).1
  constructor
  · exact reaches_size_le hIs hr2
  · intro p t' hstep
    obtain ⟨_, _, hsome, _⟩ := nextStep_inv hIs hstep
    obtain ⟨_, _, hlen⟩ := hsome p rfl
    show t'.composite.length = s.composite.length + 1
    exact hlen

theorem c8_size_monotone_witness :
    infinite.size ≤ infinite.size ∧
    (⟨[(4, 2)], 3, none⟩ : Sieve).size = infinite.size + 1 := by
  have h := c8_size_monotone infinite (Or.inl rfl) infinite infinite
    (Reaches.refl _) (Reaches.refl _)
  exact ⟨h.1, h.2 2 ⟨[(4, 2)], 3, none⟩ ⟨1, by decide⟩⟩

/-- C9: `size()` takes `&self`: it returns the number of entries of the
composite map and leaves the state unchanged, so two consecutive calls
with no intervening `next()` return the same value. -/
theorem c9_size_pure (s : Sieve) :
    s.sizeCall.2 = s ∧ s.sizeCall.2.sizeCall.1 = s.sizeCall.1 ∧
      s.sizeCall.1 = s.size :=
  ⟨rfl, rfl, rfl⟩

/-- C10: exhaustion is permanent and state-preserving: once a `next()`
call has returned `None`, every later call (after any number of further
calls) returns `None` and leaves the state — in particular the composite
map and `size()` — unchanged. -/
theorem c10_exhaustion_permanent {s t t2 t3 : Sieve} {o : Option Nat}
    (h : NextStep s none t) (hr : Reaches t t2) (h2 : NextStep t2 o t3) :
    o = none ∧ t3 = t2 ∧ t3.composite = t2.composite ∧ t3.size = t2.size := by
  have hfix : ∀ t4, Reaches t t4 → t4 = t := by
    intro t4 hr4
    induction hr4 with
    | refl => rfl
    | step hr5 hstep ih =>
      rw [ih] at hstep
      exact (nextStep_after_none h _ _ hstep).2
  have ht2 : t2 = t := hfix t2 hr
  rw [ht2] at h2
  obtain ⟨ho, ht3⟩ := nextStep_after_none h o t3 h2
  refine ⟨ho, ht3.trans ht2.symm, by rw [ht3, ht2], by rw [ht3, ht2]⟩

theorem c10_exhaustion_permanent_witness :
    (none : Option Nat) = none ∧ bounded 1 = bounded 1 ∧
      (bounded 1).composite = (bounded 1).composite ∧
      (bounded 1).size = (bounded 1).size :=
  c10_exhaustion_permanent (s := bounded 1) ⟨1, by decide⟩ (Reaches.refl _)
    ⟨1, by decide⟩
